import Mathlib

/-!
Shallow embedding of the claudy session monitor core (src/message.rs,
src/session.rs, src/app.rs) and proofs about the frozen claims.

Modelling conventions:
* Rust `u64` is modelled as `Nat` (token counts and byte lengths; overflow
  in the source would panic in debug builds and is out of scope here).
* `DateTime<Utc>` is modelled as `Nat`; the impure `Utc::now()` is threaded
  as an explicit `now : Nat` argument.
* A raw JSONL line is modelled after serde's decode result: `RawLine.malformed`
  covers undecodable lines (and blank lines, which the reading loops skip with
  the same observable effect), `RawLine.ok r` carries the decoded fields of
  the Rust `RawMessage` struct.
* The `timestamp` field is `Option (Option Nat)`: `none` = field absent,
  `some none` = present but not RFC3339-parseable, `some (some t)` = parses
  to time `t`.
* String operations mirror the Rust ones at the character level (ASCII-faithful).
-/

/-! ## String helpers (models of Rust `str` operations)

All are written over `List Char` with structural recursion so that concrete
instances evaluate inside the kernel. -/

/-- Model of Rust `str::to_lowercase` (character-wise, ASCII-faithful). -/
def lowerStr (s : String) : String := String.mk (s.data.map Char.toLower)

/-- Model of Rust `str::trim`. -/
def trimStr (s : String) : String :=
  String.mk (((s.data.dropWhile Char.isWhitespace).reverse.dropWhile
    Char.isWhitespace).reverse)

/-- Model of Rust `str::is_empty`. -/
def strIsEmpty (s : String) : Bool := s.data.isEmpty

/-- `startsWithL hay pat`: `hay` begins with `pat`. -/
def startsWithL : List Char → List Char → Bool
  | _, [] => true
  | [], _ :: _ => false
  | a :: as, b :: bs => a == b && startsWithL as bs

/-- `containsSub pat hay`: `pat` occurs as a contiguous substring of `hay`. -/
def containsSub (pat : List Char) : List Char → Bool
  | [] => startsWithL [] pat
  | a :: as => startsWithL (a :: as) pat || containsSub pat as

/-- Model of Rust `str::contains` with a string pattern. -/
def strContains (s pat : String) : Bool := containsSub pat.data s.data

/-- Model of Rust `str::starts_with` with a character pattern. -/
def strStartsWithChar (s : String) (c : Char) : Bool := startsWithL s.data [c]

/-- The text after the last occurrence of a given character
(model of `s[idx + 1..]` after `s.rfind(c)`); the whole string if absent. -/
def afterLastChar (c : Char) (s : String) : String :=
  String.mk ((s.data.reverse.takeWhile (fun a => a != c)).reverse)

/-- Join a list of strings with the newline separator
(model of `Vec::join("\n")`). -/
def joinNl : List String → String
  | [] => ""
  | [p] => p
  | p :: ps => p ++ "\n" ++ joinNl ps

/-! ## Message parser model (src/message.rs) -/

/-- One element of a content array, after serde decoding: mirrors the
field probing in `extract_text_content` / `has_tool_use`.
`text none` covers a `text`-typed block whose `text` field is absent or not
a string; `otherBlock` covers non-objects and unknown/absent `type` tags. -/
inductive ContentBlock where
  | text (t : Option String)
  | toolUse (name : Option String)
  | toolResult
  | otherBlock
deriving DecidableEq, Repr

/-- A decoded `message.content` JSON value: string, array of blocks, or
any other JSON value. -/
inductive ContentVal where
  | str (s : String)
  | arr (items : List ContentBlock)
  | otherVal
deriving DecidableEq, Repr

/-- The part contributed by one array element in `extract_text_content`. -/
def blockPart : ContentBlock → Option String
  | .text t =>
    match t with
    | some txt =>
      let trimmed := trimStr txt
      if strIsEmpty trimmed then none else some trimmed
    | none => none
  | .toolUse name => some ("[tool: " ++ name.getD "unknown" ++ "]")
  | .toolResult => some "[tool result]"
  | .otherBlock => none

/-- Model of `extract_text_content` in src/message.rs. -/
def extract_text_content : ContentVal → String
  | .str s =>
    let s := trimStr s
    if strStartsWithChar s '<' && s.data.any (fun c => c == '>') then
      let after := trimStr (afterLastChar '>' s)
      if !strIsEmpty after then after
      else if strContains s "command-name" || strContains s "local-command" then
        "[command]"
      else s
    else s
  | .arr items => joinNl (items.filterMap blockPart)
  | .otherVal => ""

/-- Model of `has_tool_use` in src/message.rs. -/
def has_tool_use : ContentVal → Bool
  | .arr items =>
    items.any fun b =>
      match b with
      | .toolUse _ => true
      | _ => false
  | _ => false

/-- Mirror of the Rust `RawUsage` struct (all fields optional `u64`). -/
structure RawUsage where
  input_tokens : Option Nat
  output_tokens : Option Nat
  cache_read_input_tokens : Option Nat
  cache_creation_input_tokens : Option Nat
deriving DecidableEq, Repr

/-- Mirror of the Rust `RawMessageContent` struct. -/
structure RawMessageContent where
  content : Option ContentVal
  usage : Option RawUsage
deriving DecidableEq, Repr

/-- Mirror of the Rust `RawMessage` struct (the serde target for one line). -/
structure RawMessage where
  msg_type : String
  timestamp : Option (Option Nat)
  message : Option RawMessageContent
  session_id : Option String
  git_branch : Option String
  cwd : Option String
  slug : Option String
  summary : Option String
deriving DecidableEq, Repr

/-- A raw input line: either undecodable (malformed JSON; blank lines behave
identically in every reading loop) or a decoded `RawMessage`. -/
inductive RawLine where
  | malformed
  | ok (r : RawMessage)
deriving DecidableEq, Repr

/-- Message types, as in src/message.rs. -/
inductive MessageType where
  | user
  | assistant
  | progress
  | toolUse
  | other
deriving DecidableEq, Repr

/-- Mirror of the Rust `SessionMessage` struct. -/
structure SessionMessage where
  msg_type : MessageType
  timestamp : Nat
  content : String
  tokens_in : Option Nat
  tokens_out : Option Nat
deriving DecidableEq, Repr

/-- The timestamp chosen by `parse_line`: the RFC3339 value when the field is
present and parseable, otherwise the current time. -/
def lineTimestamp (now : Nat) (r : RawMessage) : Nat :=
  match r.timestamp with
  | some (some t) => t
  | _ => now

/-- Whether an assistant line's content carries a tool-use block
(`msg.and_then(content).map(has_tool_use).unwrap_or(false)`). -/
def assistantHasToolUse (r : RawMessage) : Bool :=
  ((r.message.bind (·.content)).map has_tool_use).getD false

/-- The extracted content of a `user`/`assistant` line
(`message.and_then(content).map(extract_text_content).unwrap_or_default()`). -/
def extractedContent (r : RawMessage) : String :=
  ((r.message.bind (·.content)).map extract_text_content).getD ""

/-- The `(msg_type, content, tokens_in, tokens_out)` computed by the main
`match` of `parse_line` in src/message.rs (the string `match` rendered as an
if-chain over the same mutually exclusive literal patterns). -/
def classifyLine (r : RawMessage) : MessageType × String × Option Nat × Option Nat :=
  if r.msg_type = "user" then
    (.user, extractedContent r, none, none)
  else if r.msg_type = "assistant" then
    let tokens_in := r.message.bind fun m =>
      m.usage.map fun u =>
        u.input_tokens.getD 0 + u.cache_read_input_tokens.getD 0 +
          u.cache_creation_input_tokens.getD 0
    let tokens_out := r.message.bind fun m => m.usage.bind (·.output_tokens)
    let actual :=
      if assistantHasToolUse r then MessageType.toolUse else MessageType.assistant
    (actual, extractedContent r, tokens_in, tokens_out)
  else if r.msg_type = "progress" then
    (.progress, "[progress]", none, none)
  else
    (.other, "[" ++ r.msg_type ++ "]", none, none)

/-- Model of `parse_line` in src/message.rs. -/
def parse_line (now : Nat) : RawLine → Option SessionMessage
  | .malformed => none
  | .ok r =>
    if r.msg_type = "file-history-snapshot" ∨ r.msg_type = "queue-operation" then
      none
    else
      let ts := lineTimestamp now r
      let c := classifyLine r
      if c.2.1 = "" ∨ c.2.1 = "[command]" then none
      else
        some { msg_type := c.1, timestamp := ts, content := c.2.1,
               tokens_in := c.2.2.1, tokens_out := c.2.2.2 }

/-- Mirror of the Rust `SessionMeta` struct. -/
structure SessionMeta where
  git_branch : Option String
  cwd : Option String
  slug : Option String
  summary : Option String
deriving DecidableEq, Repr

/-- Model of `extract_meta` in src/message.rs. -/
def extract_meta : RawLine → Option SessionMeta
  | .malformed => none
  | .ok r =>
    if r.msg_type = "summary" then
      some { git_branch := none, cwd := none, slug := none, summary := r.summary }
    else
      match r.session_id with
      | none => none
      | some _ =>
        some { git_branch := r.git_branch, cwd := r.cwd, slug := r.slug,
               summary := none }

/-- A decoded line with every optional field absent and the given type. -/
def bareRaw (t : String) : RawMessage :=
  { msg_type := t, timestamp := none, message := none, session_id := none,
    git_branch := none, cwd := none, slug := none, summary := none }

example :
    parse_line 7 (.ok
      { bareRaw "user" with
        timestamp := some (some 5),
        message := some { content := some (.str "hello"), usage := none } }) =
    some { msg_type := .user, timestamp := 5, content := "hello",
           tokens_in := none, tokens_out := none } := by decide

example :
    parse_line 7 (.ok (bareRaw "progress")) =
    some { msg_type := .progress, timestamp := 7, content := "[progress]",
           tokens_in := none, tokens_out := none } := by decide

/-! ## Session model (src/session.rs)

The filesystem is made explicit: a log file is a list of lines, each carrying
its decoded form and its byte size (including the line terminator); directory
listings and file reads that can fail are passed in as `Except` values.
The session store (`HashMap<String, Session>`) is modelled as a function map. -/

/-- Mirror of the Rust `IndexEntry` struct (one `sessions-index.json` entry). -/
structure IndexEntry where
  session_id : String
  custom_title : Option String
  summary : Option String
  git_branch : Option String
  project_path : Option String
deriving DecidableEq, Repr

/-- Mirror of the Rust `Session` struct. -/
structure Session where
  id : String
  project_slug : String
  slug : Option String
  custom_title : Option String
  summary : Option String
  git_branch : Option String
  cwd : Option String
  messages : List SessionMessage
  last_activity : Nat
  file_offset : Nat
  file_path : String
  total_tokens_in : Nat
  total_tokens_out : Nat
deriving DecidableEq, Repr

/-- The session store: `HashMap<String, Session>` as a function map. -/
def SMap : Type := String → Option Session

/-- `HashMap::insert`. -/
def updateMap (m : SMap) (k : String) (v : Session) : SMap :=
  fun id => if id = k then some v else m id

/-- The empty store. -/
def emptyMap : SMap := fun _ => none

/-- Key lookup in an association list (a built `HashMap` keyed by session id,
as produced by `load_sessions_index`). -/
def alist_get {β : Type} (k : String) : List (String × β) → Option β
  | [] => none
  | (k2, v) :: rest => if k2 = k then some v else alist_get k rest

/-- One stored line of a log file: its decoded form and its size in bytes
(including the line terminator), so byte offsets can be modelled. -/
structure FileLine where
  raw : RawLine
  size : Nat
deriving DecidableEq, Repr

/-- The byte length of a file. -/
def fileLen : List FileLine → Nat
  | [] => 0
  | l :: rest => l.size + fileLen rest

/-- The lines visible when reading from byte offset `o`
(model of `seek(SeekFrom::Start(o))` followed by `lines()`). Seeking into
the middle of a line yields a partial first line, modelled as `malformed`. -/
def linesFrom (o : Nat) : List FileLine → List RawLine
  | [] => []
  | l :: rest =>
    if o = 0 then (l :: rest).map (·.raw)
    else if l.size ≤ o then linesFrom (o - l.size) rest
    else RawLine.malformed :: rest.map (·.raw)

/-- The metadata-accumulation step shared by `parse_session_file` and
`read_new_lines`: while branch/cwd/slug are not all set, fill the unset ones
from `extract_meta`. -/
def applyMeta (s : Session) (l : RawLine) : Session :=
  if s.git_branch = none ∨ s.cwd = none ∨ s.slug = none then
    match extract_meta l with
    | some meta =>
      { s with
        git_branch := if s.git_branch = none then meta.git_branch else s.git_branch,
        cwd := if s.cwd = none then meta.cwd else s.cwd,
        slug := if s.slug = none then meta.slug else s.slug }
    | none => s
  else s

/-- The per-retained-message update shared by `parse_session_file` and
`read_new_lines`: set `last_activity`, add the optional token counts, and
append the message. -/
def applyMsg (s : Session) (msg : SessionMessage) : Session :=
  { s with
    last_activity := msg.timestamp,
    total_tokens_in := s.total_tokens_in + msg.tokens_in.getD 0,
    total_tokens_out := s.total_tokens_out + msg.tokens_out.getD 0,
    messages := s.messages ++ [msg] }

/-- The line-reading loop shared by `parse_session_file` and
`read_new_lines`: per line, accumulate metadata, then parse and retain.
Also returns the list of retained messages (the return value of
`read_new_lines`). -/
def processLines (now : Nat) (s : Session) : List RawLine → Session × List SessionMessage
  | [] => (s, [])
  | l :: ls =>
    let s1 := applyMeta s l
    match parse_line now l with
    | some msg =>
      let res := processLines now (applyMsg s1 msg) ls
      (res.1, msg :: res.2)
    | none => processLines now s1 ls

/-- Model of `parse_session_file` in src/session.rs. -/
def parse_session_file (now : Nat) (session_id project_slug : String)
    (entry : Option IndexEntry) (path : String) (f : List FileLine) : Session :=
  let s0 : Session :=
    { id := session_id, project_slug := project_slug, slug := none,
      custom_title := entry.bind (·.custom_title),
      summary := entry.bind (·.summary),
      git_branch := entry.bind (·.git_branch),
      cwd := entry.bind (·.project_path),
      messages := [], last_activity := now, file_offset := 0,
      file_path := path, total_tokens_in := 0, total_tokens_out := 0 }
  { (processLines now s0 (f.map (·.raw))).1 with file_offset := fileLen f }

/-- Model of `read_new_lines` in src/session.rs: the updated session plus the
newly retained messages. -/
def read_new_lines (now : Nat) (s : Session) (f : List FileLine) :
    Session × List SessionMessage :=
  if fileLen f ≤ s.file_offset then (s, [])
  else
    let res := processLines now s (linesFrom s.file_offset f)
    ({ res.1 with file_offset := fileLen f }, res.2)

/-- Model of Rust `str::starts_with` with a string pattern. -/
def strStartsWith (s pat : String) : Bool := startsWithL s.data pat.data

/-- One log file as seen by `discover_sessions`: its stem and extension,
its path, and its contents — `Except.error` when opening/reading the file
fails (the `parse_session_file` error case). -/
structure FileDesc where
  stem : String
  ext : Option String
  path : String
  content : Except String (List FileLine)

/-- One project subdirectory as seen by `discover_sessions`: its name,
whether it is a directory, its loaded `sessions-index.json` map (empty when
missing or malformed), and its file listing — `Except.error` when the
directory read fails. -/
structure Project where
  dirName : String
  isDir : Bool
  index : List (String × IndexEntry)
  files : Except String (List FileDesc)

/-- The placeholder session inserted when `parse_session_file` fails for one
file during discovery. -/
def placeholderSession (now : Nat) (session_id project_slug : String)
    (entry : Option IndexEntry) (path : String) : Session :=
  { id := session_id, project_slug := project_slug, slug := none,
    custom_title := entry.bind (·.custom_title),
    summary := entry.bind (·.summary),
    git_branch := entry.bind (·.git_branch),
    cwd := entry.bind (·.project_path),
    messages := [], last_activity := now, file_offset := 0,
    file_path := path, total_tokens_in := 0, total_tokens_out := 0 }

/-- The session that discovery inserts for one eligible file: a full parse on
success, the placeholder on a per-file failure. -/
def fileSession (now : Nat) (p : Project) (f : FileDesc) : Session :=
  match f.content with
  | .ok lines =>
    parse_session_file now f.stem p.dirName (alist_get f.stem p.index) f.path lines
  | .error _ =>
    placeholderSession now f.stem p.dirName (alist_get f.stem p.index) f.path

/-- The inner file loop of `discover_sessions`: skip non-`jsonl` extensions
and `agent-` stems, insert a session for every other file. -/
def discoverFiles (now : Nat) (p : Project) (m : SMap) : List FileDesc → SMap
  | [] => m
  | f :: fs =>
    if f.ext ≠ some "jsonl" then discoverFiles now p m fs
    else if strStartsWith f.stem "agent-" then discoverFiles now p m fs
    else discoverFiles now p (updateMap m f.stem (fileSession now p f)) fs

/-- The outer project loop of `discover_sessions`: skip non-directories,
abort on a failed directory listing. -/
def discoverProjects (now : Nat) (m : SMap) : List Project → Except String SMap
  | [] => .ok m
  | p :: ps =>
    if !p.isDir then discoverProjects now m ps
    else
      match p.files with
      | .error e => .error e
      | .ok fs => discoverProjects now (discoverFiles now p m fs) ps

/-- Model of `discover_sessions` in src/session.rs. `root` is the result of
reading the base directory (a nonexistent base is `.ok []`). -/
def discover_sessions (now : Nat) (root : Except String (List Project)) :
    Except String SMap :=
  match root with
  | .error e => .error e
  | .ok ps => discoverProjects now emptyMap ps

/-- The per-entry update of `refresh_index_metadata`: overwrite
`custom_title` and `summary` only when the index value is set. -/
def applyIndexEntry (e : IndexEntry) (s : Session) : Session :=
  { s with
    custom_title := if e.custom_title.isSome then e.custom_title else s.custom_title,
    summary := if e.summary.isSome then e.summary else s.summary }

/-- The inner entry loop of `refresh_index_metadata`. -/
def refreshEntries (m : SMap) : List (String × IndexEntry) → SMap
  | [] => m
  | (sid, e) :: rest =>
    match m sid with
    | some s => refreshEntries (updateMap m sid (applyIndexEntry e s)) rest
    | none => refreshEntries m rest

/-- Model of `refresh_index_metadata` in src/session.rs (a failed base
directory read leaves the store untouched, i.e. an empty project list). -/
def refresh_index_metadata (projects : List Project) (m : SMap) : SMap :=
  match projects with
  | [] => m
  | p :: ps =>
    if !p.isDir then refresh_index_metadata ps m
    else refresh_index_metadata ps (refreshEntries m p.index)

/-! ## View-state controller model (src/app.rs)

`sort_by` over the `HashMap` key enumeration is modelled by a stable
insertion sort over a given key list `keys` (Rust's `sort_by` is stable, and
a stable sort's result is a function of the input order and the comparator).
`Session::is_active` reads the file's mtime; it is passed in as an oracle
`isActive : Session → Bool`. -/

/-- Model of `Session::short_id` (the first 8 characters of the id). -/
def short_id (s : Session) : String := String.mk (s.id.data.take 8)

/-- Model of `Session::display_name`:
custom title, else slug, else summary, else short id; branch appended. -/
def display_name (s : Session) : String :=
  let name := (s.custom_title.or (s.slug.or s.summary)).getD (short_id s)
  match s.git_branch with
  | some branch => name ++ " (" ++ branch ++ ")"
  | none => name

/-- The sort comparator of `sort_session_ids`: `a` may precede `b` iff the
comparator `b.last_activity.cmp(&a.last_activity)` is not `Greater`;
a missing id compares `Equal` to everything. -/
def sortLe (m : SMap) (a b : String) : Bool :=
  match m a, m b with
  | some sa, some sb => decide (sb.last_activity ≤ sa.last_activity)
  | _, _ => true

/-- Stable insertion into a sorted list (earlier input before equals). -/
def insertSorted (le : String → String → Bool) (a : String) :
    List String → List String
  | [] => [a]
  | b :: bs => if le a b then a :: b :: bs else b :: insertSorted le a bs

/-- Stable insertion sort. -/
def sortedByLe (le : String → String → Bool) : List String → List String
  | [] => []
  | a :: as => insertSorted le a (sortedByLe le as)

/-- Model of `sort_session_ids` in src/app.rs: the key list `keys` (the
`HashMap` enumeration order) stably sorted by descending `last_activity`. -/
def sort_session_ids (m : SMap) (keys : List String) : List String :=
  sortedByLe (sortLe m) keys

/-- The merge performed before a duplicate `dup` is discarded: copy its
custom title onto the kept session when the kept one has none. -/
def migrateTitle (m : SMap) (keptId : String) (dup : Session) : SMap :=
  if dup.custom_title.isSome then
    match m keptId with
    | some kept =>
      if kept.custom_title = none then
        updateMap m keptId { kept with custom_title := dup.custom_title }
      else m
    | none => m
  else m

/-- The slug-deduplication `retain` loop of `App::update_sort`. `seen` is the
slug → kept-id map. Returns the retained ids and the (title-migrated) store. -/
def dedupSlugs (m : SMap) (seen : List (String × String)) :
    List String → List String × SMap
  | [] => ([], m)
  | id :: rest =>
    match m id with
    | some s =>
      match s.slug with
      | some sl =>
        match alist_get sl seen with
        | some keptId => dedupSlugs (migrateTitle m keptId s) seen rest
        | none =>
          let res := dedupSlugs m ((sl, id) :: seen) rest
          (id :: res.1, res.2)
      | none =>
        let res := dedupSlugs m seen rest
        (id :: res.1, res.2)
    | none =>
      let res := dedupSlugs m seen rest
      (id :: res.1, res.2)

/-- The active-only `retain` of `App::update_sort`. -/
def activeFilter (isActive : Session → Bool) (m : SMap) (ids : List String) :
    List String :=
  ids.filter fun id =>
    match m id with
    | some s => isActive s
    | none => false

/-- The per-session text-filter predicate of `App::update_sort`: lowercased
display name, raw id, and lowercased summary are matched against the
lowercased filter. -/
def textMatch (flt : String) (s : Session) : Bool :=
  let filter_lower := lowerStr flt
  strContains (lowerStr (display_name s)) filter_lower ||
    strContains s.id filter_lower ||
    strContains (lowerStr (s.summary.getD "")) filter_lower

/-- The text-filter `retain` of `App::update_sort`. -/
def textFilter (flt : String) (m : SMap) (ids : List String) : List String :=
  ids.filter fun id =>
    match m id with
    | some s => textMatch flt s
    | none => false

/-- The `App` fields that `update_sort` reads and writes. -/
structure ViewState where
  sessions : SMap
  sorted_session_ids : List String
  selected_session : Option String
  list_index : Option Nat
  show_active_only : Bool
  filter_text : Option String

/-- The selection-restore tail of `App::update_sort` (the `if let Some(ref
sel) = old_selected` block over the freshly filtered state `st1`). -/
def restoreSelection (old_selected : Option String) (st1 : ViewState) :
    ViewState :=
  match old_selected with
  | some sel =>
    match st1.sorted_session_ids.findIdx? (fun id => id == sel) with
    | some idx => { st1 with list_index := some idx }
    | none =>
      if !st1.sorted_session_ids.isEmpty then
        { st1 with list_index := some 0,
                   selected_session := st1.sorted_session_ids.head? }
      else
        { st1 with list_index := none, selected_session := none }
  | none => st1

/-- Model of `App::update_sort` in src/app.rs: sort, deduplicate by slug,
apply the active-only filter then the text filter, then restore the
selection. `keys` is the session-map key enumeration. -/
def update_sort (isActive : Session → Bool) (keys : List String)
    (st : ViewState) : ViewState :=
  let old_selected := st.selected_session
  let sorted := sort_session_ids st.sessions keys
  let dd := dedupSlugs st.sessions [] sorted
  let ids1 := dd.1
  let m1 := dd.2
  let ids2 := if st.show_active_only then activeFilter isActive m1 ids1 else ids1
  let ids3 :=
    match st.filter_text with
    | some flt => textFilter flt m1 ids2
    | none => ids2
  restoreSelection old_selected { st with sessions := m1, sorted_session_ids := ids3 }


/-! ## Claim C9: parse_line type and content rules -/

/-- On a line that passes both drop rules, `parse_line` returns the message
assembled from `classifyLine` and `lineTimestamp`. -/
theorem parse_line_some_shape (now : Nat) (r : RawMessage)
    (hA : ¬(r.msg_type = "file-history-snapshot" ∨ r.msg_type = "queue-operation"))
    (hB : ¬((classifyLine r).2.1 = "" ∨ (classifyLine r).2.1 = "[command]")) :
    parse_line now (.ok r) =
      some ⟨(classifyLine r).1, lineTimestamp now r, (classifyLine r).2.1,
        (classifyLine r).2.2.1, (classifyLine r).2.2.2⟩ := by
  simp [parse_line, hA, hB]

/-- C9: `parse_line` returns no message for `file-history-snapshot` /
`queue-operation` lines and for lines whose extracted content is empty or
exactly `"[command]"`; otherwise the message type is User for `user`,
ToolUse for `assistant` with a tool-use block, Assistant for other
`assistant` lines, Progress with content `"[progress]"` for `progress`, and
Other with content `"[<type>]"` for any other type. -/
theorem parse_line_type_rules (now : Nat) (r : RawMessage) :
    ((r.msg_type = "file-history-snapshot" ∨ r.msg_type = "queue-operation") →
        parse_line now (.ok r) = none)
    ∧ ((classifyLine r).2.1 = "" ∨ (classifyLine r).2.1 = "[command]" →
        parse_line now (.ok r) = none)
    ∧ (∀ msg, parse_line now (.ok r) = some msg →
        msg.content = (classifyLine r).2.1
        ∧ (r.msg_type = "user" → msg.msg_type = .user)
        ∧ (r.msg_type = "assistant" → assistantHasToolUse r = true →
            msg.msg_type = .toolUse)
        ∧ (r.msg_type = "assistant" → assistantHasToolUse r = false →
            msg.msg_type = .assistant)
        ∧ (r.msg_type = "progress" →
            msg.msg_type = .progress ∧ msg.content = "[progress]")
        ∧ (r.msg_type ≠ "user" → r.msg_type ≠ "assistant" →
            r.msg_type ≠ "progress" →
            msg.msg_type = .other ∧ msg.content = "[" ++ r.msg_type ++ "]")) := by
  refine ⟨fun h => by simp [parse_line, h], fun h => ?_, fun msg h => ?_⟩
  · by_cases hA : r.msg_type = "file-history-snapshot" ∨ r.msg_type = "queue-operation"
    · simp [parse_line, hA]
    · simp [parse_line, hA, h]
  · by_cases hA : r.msg_type = "file-history-snapshot" ∨ r.msg_type = "queue-operation"
    · simp [parse_line, hA] at h
    · by_cases hB : (classifyLine r).2.1 = "" ∨ (classifyLine r).2.1 = "[command]"
      · simp [parse_line, hA, hB] at h
      · rw [parse_line_some_shape now r hA hB] at h
        obtain h := Option.some.inj h
        subst h
        refine ⟨rfl, fun hu => ?_, fun ha ht => ?_, fun ha ht => ?_,
          fun hp => ?_, fun h1 h2 h3 => ?_⟩
        · simp [classifyLine, hu]
        · simp [classifyLine, ha, ht]
        · simp [classifyLine, ha, ht]
        · simp [classifyLine, hp]
        · simp [classifyLine, h1, h2, h3]

/-- Witness for C9: a `file-history-snapshot` line is dropped, and a concrete
`progress` line is mapped to a Progress message with content `"[progress]"`. -/
theorem parse_line_type_rules_witness :
    parse_line 7 (.ok (bareRaw "file-history-snapshot")) = none
    ∧ (⟨.progress, 7, "[progress]", none, none⟩ : SessionMessage).msg_type
        = MessageType.progress
    ∧ (⟨.progress, 7, "[progress]", none, none⟩ : SessionMessage).content
        = "[progress]" :=
  ⟨(parse_line_type_rules 7 (bareRaw "file-history-snapshot")).1 (Or.inl rfl),
   (((parse_line_type_rules 7 (bareRaw "progress")).2.2 _ (by decide)).2.2.2.2.1
     (by decide)).1,
   (((parse_line_type_rules 7 (bareRaw "progress")).2.2 _ (by decide)).2.2.2.2.1
     (by decide)).2⟩

/-! ## Claim C10: timestamp fallback to the current time -/

/-- C10: when the timestamp field is absent or unparseable, `parse_line` does
not reject the line: the message (when the type/content rules retain it)
carries the current time, retention is independent of the timestamp field,
and the fallback time becomes the session's `last_activity`. -/
theorem parse_line_timestamp_fallback (now : Nat) (r : RawMessage)
    (hts : r.timestamp = none ∨ r.timestamp = some none) :
    (∀ msg, parse_line now (.ok r) = some msg → msg.timestamp = now)
    ∧ (∀ now2 ts2, (parse_line now (.ok r)).isSome =
        (parse_line now2 (.ok { r with timestamp := ts2 })).isSome)
    ∧ (∀ s msg, parse_line now (.ok r) = some msg →
        (processLines now s [.ok r]).1.last_activity = now) := by
  have hlt : lineTimestamp now r = now := by
    rcases hts with h | h <;> simp [lineTimestamp, h]
  have hstamp : ∀ msg, parse_line now (.ok r) = some msg → msg.timestamp = now := by
    intro msg h
    by_cases hA : r.msg_type = "file-history-snapshot" ∨ r.msg_type = "queue-operation"
    · simp [parse_line, hA] at h
    · by_cases hB : (classifyLine r).2.1 = "" ∨ (classifyLine r).2.1 = "[command]"
      · simp [parse_line, hA, hB] at h
      · rw [parse_line_some_shape now r hA hB] at h
        obtain h := Option.some.inj h
        subst h
        exact hlt
  refine ⟨hstamp, fun now2 ts2 => ?_, fun s msg h => ?_⟩
  · have hmt : ({ r with timestamp := ts2 } : RawMessage).msg_type = r.msg_type := rfl
    have hcl : classifyLine { r with timestamp := ts2 } = classifyLine r := rfl
    by_cases hA : r.msg_type = "file-history-snapshot" ∨ r.msg_type = "queue-operation"
    · simp [parse_line, hA, hmt, hcl]
    · by_cases hB : (classifyLine r).2.1 = "" ∨ (classifyLine r).2.1 = "[command]"
      · simp [parse_line, hA, hB, hmt, hcl]
      · simp [parse_line, hA, hB, hmt, hcl]
  · simp [processLines, h, applyMsg]
    exact hstamp msg h

/-- Witness for C10: a concrete `progress` line with no timestamp field. -/
theorem parse_line_timestamp_fallback_witness :
    (⟨.progress, 7, "[progress]", none, none⟩ : SessionMessage).timestamp = 7 :=
  (parse_line_timestamp_fallback 7 (bareRaw "progress") (Or.inl rfl)).1 _ (by decide)

/-! ## Reading-loop lemmas (shared by C1, C2, C7) -/

/-- Total input tokens over a message list (an absent field contributes 0). -/
def msgsTokensIn : List SessionMessage → Nat
  | [] => 0
  | m :: ms => m.tokens_in.getD 0 + msgsTokensIn ms

/-- Total output tokens over a message list (an absent field contributes 0). -/
def msgsTokensOut : List SessionMessage → Nat
  | [] => 0
  | m :: ms => m.tokens_out.getD 0 + msgsTokensOut ms

/-- `last_activity` after retaining a message list on top of an old value:
the last message's timestamp, else the old value. -/
def lastActivityAfter (old : Nat) : List SessionMessage → Nat
  | [] => old
  | m :: ms => lastActivityAfter m.timestamp ms

theorem msgsTokensIn_append (a b : List SessionMessage) :
    msgsTokensIn (a ++ b) = msgsTokensIn a + msgsTokensIn b := by
  induction a with
  | nil => simp [msgsTokensIn]
  | cons m ms ih => simp [msgsTokensIn, ih, Nat.add_assoc]

theorem msgsTokensOut_append (a b : List SessionMessage) :
    msgsTokensOut (a ++ b) = msgsTokensOut a + msgsTokensOut b := by
  induction a with
  | nil => simp [msgsTokensOut]
  | cons m ms ih => simp [msgsTokensOut, ih, Nat.add_assoc]

@[simp] theorem applyMeta_messages (s : Session) (l : RawLine) :
    (applyMeta s l).messages = s.messages := by
  unfold applyMeta
  split
  · split <;> rfl
  · rfl

@[simp] theorem applyMeta_tokens_in (s : Session) (l : RawLine) :
    (applyMeta s l).total_tokens_in = s.total_tokens_in := by
  unfold applyMeta
  split
  · split <;> rfl
  · rfl

@[simp] theorem applyMeta_tokens_out (s : Session) (l : RawLine) :
    (applyMeta s l).total_tokens_out = s.total_tokens_out := by
  unfold applyMeta
  split
  · split <;> rfl
  · rfl

@[simp] theorem applyMeta_last_activity (s : Session) (l : RawLine) :
    (applyMeta s l).last_activity = s.last_activity := by
  unfold applyMeta
  split
  · split <;> rfl
  · rfl

@[simp] theorem applyMeta_file_offset (s : Session) (l : RawLine) :
    (applyMeta s l).file_offset = s.file_offset := by
  unfold applyMeta
  split
  · split <;> rfl
  · rfl

@[simp] theorem applyMsg_messages (s : Session) (m : SessionMessage) :
    (applyMsg s m).messages = s.messages ++ [m] := rfl

@[simp] theorem applyMsg_tokens_in (s : Session) (m : SessionMessage) :
    (applyMsg s m).total_tokens_in = s.total_tokens_in + m.tokens_in.getD 0 := rfl

@[simp] theorem applyMsg_tokens_out (s : Session) (m : SessionMessage) :
    (applyMsg s m).total_tokens_out = s.total_tokens_out + m.tokens_out.getD 0 := rfl

@[simp] theorem applyMsg_last_activity (s : Session) (m : SessionMessage) :
    (applyMsg s m).last_activity = m.timestamp := rfl

@[simp] theorem applyMsg_file_offset (s : Session) (m : SessionMessage) :
    (applyMsg s m).file_offset = s.file_offset := rfl

theorem processLines_out (now : Nat) (ls : List RawLine) :
    ∀ s, (processLines now s ls).2 = ls.filterMap (parse_line now) := by
  induction ls with
  | nil => intro s; rfl
  | cons l ls ih =>
    intro s
    cases h : parse_line now l with
    | some msg => simp [processLines, h, ih]
    | none => simp [processLines, h, ih]

theorem processLines_messages (now : Nat) (ls : List RawLine) :
    ∀ s, (processLines now s ls).1.messages =
      s.messages ++ (processLines now s ls).2 := by
  induction ls with
  | nil => intro s; simp [processLines]
  | cons l ls ih =>
    intro s
    cases h : parse_line now l with
    | some msg => simp [processLines, h, ih]
    | none => simp [processLines, h, ih]

theorem processLines_tokens_in (now : Nat) (ls : List RawLine) :
    ∀ s, (processLines now s ls).1.total_tokens_in =
      s.total_tokens_in + msgsTokensIn (processLines now s ls).2 := by
  induction ls with
  | nil => intro s; simp [processLines, msgsTokensIn]
  | cons l ls ih =>
    intro s
    cases h : parse_line now l with
    | some msg => simp [processLines, h, ih, msgsTokensIn, Nat.add_assoc]
    | none => simp [processLines, h, ih]

theorem processLines_tokens_out (now : Nat) (ls : List RawLine) :
    ∀ s, (processLines now s ls).1.total_tokens_out =
      s.total_tokens_out + msgsTokensOut (processLines now s ls).2 := by
  induction ls with
  | nil => intro s; simp [processLines, msgsTokensOut]
  | cons l ls ih =>
    intro s
    cases h : parse_line now l with
    | some msg => simp [processLines, h, ih, msgsTokensOut, Nat.add_assoc]
    | none => simp [processLines, h, ih]

theorem processLines_last_activity (now : Nat) (ls : List RawLine) :
    ∀ s, (processLines now s ls).1.last_activity =
      lastActivityAfter s.last_activity (processLines now s ls).2 := by
  induction ls with
  | nil => intro s; simp [processLines, lastActivityAfter]
  | cons l ls ih =>
    intro s
    cases h : parse_line now l with
    | some msg => simp [processLines, h, ih, lastActivityAfter]
    | none => simp [processLines, h, ih]

theorem processLines_file_offset (now : Nat) (ls : List RawLine) :
    ∀ s, (processLines now s ls).1.file_offset = s.file_offset := by
  induction ls with
  | nil => intro s; rfl
  | cons l ls ih =>
    intro s
    cases h : parse_line now l with
    | some msg => simp [processLines, h, ih]
    | none => simp [processLines, h, ih]

theorem fileLen_append (a b : List FileLine) :
    fileLen (a ++ b) = fileLen a + fileLen b := by
  induction a with
  | nil => simp [fileLen]
  | cons l a ih => simp [fileLen, ih, Nat.add_assoc]

/-- Reading from the byte offset that marks the end of a prefix `f₀` yields
exactly the appended lines (every stored line has at least one byte). -/
theorem linesFrom_append (f₀ K : List FileLine) (h : ∀ l ∈ f₀, 1 ≤ l.size) :
    linesFrom (fileLen f₀) (f₀ ++ K) = K.map (·.raw) := by
  induction f₀ with
  | nil =>
    cases K with
    | nil => rfl
    | cons k ks => simp [fileLen, linesFrom]
  | cons l f₀ ih =>
    have hl : 1 ≤ l.size := h l (by simp)
    have hrest : ∀ x ∈ f₀, 1 ≤ x.size := fun x hx => h x (by simp [hx])
    simp only [fileLen, List.cons_append, linesFrom]
    rw [if_neg (by omega), if_pos (by omega)]
    have h2 : l.size + fileLen f₀ - l.size = fileLen f₀ := by omega
    rw [h2]
    exact ih hrest

/-! ## Claim C1: appending lines and tailing -/

/-- C1: from an offset equal to the parsed prefix length, tailing after `K`
lines were appended returns exactly the retained subset of `K` in file
order, appends those messages, adds their tokens, updates `last_activity`,
and sets `file_offset` to the new file length. -/
theorem read_new_lines_append (now : Nat) (s : Session) (f₀ K : List FileLine)
    (hoff : s.file_offset = fileLen f₀)
    (h₀ : ∀ l ∈ f₀, 1 ≤ l.size) (hK : ∀ l ∈ K, 1 ≤ l.size) :
    (read_new_lines now s (f₀ ++ K)).2 =
        (K.map (·.raw)).filterMap (parse_line now)
    ∧ (read_new_lines now s (f₀ ++ K)).1.messages =
        s.messages ++ (read_new_lines now s (f₀ ++ K)).2
    ∧ (read_new_lines now s (f₀ ++ K)).1.total_tokens_in =
        s.total_tokens_in + msgsTokensIn (read_new_lines now s (f₀ ++ K)).2
    ∧ (read_new_lines now s (f₀ ++ K)).1.total_tokens_out =
        s.total_tokens_out + msgsTokensOut (read_new_lines now s (f₀ ++ K)).2
    ∧ (read_new_lines now s (f₀ ++ K)).1.last_activity =
        lastActivityAfter s.last_activity (read_new_lines now s (f₀ ++ K)).2
    ∧ (read_new_lines now s (f₀ ++ K)).1.file_offset = fileLen (f₀ ++ K) := by
  cases K with
  | nil =>
    have hle : fileLen (f₀ ++ []) ≤ s.file_offset := by
      rw [List.append_nil, hoff]
    unfold read_new_lines
    rw [if_pos hle]
    simp [msgsTokensIn, msgsTokensOut, lastActivityAfter, List.append_nil, hoff]
  | cons k ks =>
    have hk1 : 1 ≤ k.size := hK k (by simp)
    have hgt : ¬ fileLen (f₀ ++ k :: ks) ≤ s.file_offset := by
      rw [fileLen_append, hoff]
      simp only [fileLen]
      omega
    have hlines : linesFrom s.file_offset (f₀ ++ k :: ks) =
        (k :: ks).map (·.raw) := by
      rw [hoff]
      exact linesFrom_append f₀ (k :: ks) h₀
    unfold read_new_lines
    rw [if_neg hgt, hlines]
    exact ⟨processLines_out now _ s,
      processLines_messages now _ s,
      processLines_tokens_in now _ s,
      processLines_tokens_out now _ s,
      processLines_last_activity now _ s,
      rfl⟩

/-- A minimal session used by the C1 witness. -/
def c1_sess : Session :=
  { id := "s1", project_slug := "p", slug := none, custom_title := none,
    summary := none, git_branch := none, cwd := none, messages := [],
    last_activity := 1, file_offset := 0, file_path := "p/s1.jsonl",
    total_tokens_in := 0, total_tokens_out := 0 }

/-- Witness for C1: tailing a one-line append from offset 0. -/
theorem read_new_lines_append_witness :
    c1_sess.file_offset = fileLen ([] : List FileLine)
    ∧ (read_new_lines 3 c1_sess
        ([] ++ [⟨RawLine.ok (bareRaw "progress"), 20⟩])).2 =
      (([⟨RawLine.ok (bareRaw "progress"), 20⟩] : List FileLine).map
        (·.raw)).filterMap (parse_line 3) :=
  ⟨by decide,
   (read_new_lines_append 3 c1_sess [] [⟨RawLine.ok (bareRaw "progress"), 20⟩]
     (by decide) (by decide) (by decide)).1⟩

/-! ## Claim C7: no growth means no change -/

/-- C7: when the file is no longer than `file_offset` (including a shrunken
file), `read_new_lines` returns the empty list and the session unchanged;
and immediately repeating any tail read returns empty and changes nothing. -/
theorem read_new_lines_no_growth (now now2 : Nat) (s : Session)
    (f : List FileLine) (h : fileLen f ≤ s.file_offset) :
    read_new_lines now s f = (s, [])
    ∧ (∀ s2 f2, read_new_lines now2 (read_new_lines now s2 f2).1 f2 =
        ((read_new_lines now s2 f2).1, [])) := by
  constructor
  · unfold read_new_lines
    rw [if_pos h]
  · intro s2 f2
    by_cases h2 : fileLen f2 ≤ s2.file_offset
    · simp [read_new_lines, h2]
    · simp [read_new_lines, h2]

/-- Witness for C7: a shrunken one-line file against offset 25. -/
theorem read_new_lines_no_growth_witness :
    read_new_lines 9 { c1_sess with file_offset := 25 }
        [⟨RawLine.ok (bareRaw "progress"), 20⟩] =
      ({ c1_sess with file_offset := 25 }, []) :=
  (read_new_lines_no_growth 9 9 { c1_sess with file_offset := 25 }
    [⟨RawLine.ok (bareRaw "progress"), 20⟩] (by decide)).1

/-! ## Claim C2: token totals and message-count invariants -/

/-- C2: after a full parse the token totals equal the sums over the retained
messages and the message count equals the number of retained lines; a tail
read preserves the token invariants and adds exactly the newly retained
messages to the count. -/
theorem token_sum_invariants :
    (∀ now sid ps entry path f,
      (parse_session_file now sid ps entry path f).total_tokens_in =
          msgsTokensIn (parse_session_file now sid ps entry path f).messages
      ∧ (parse_session_file now sid ps entry path f).total_tokens_out =
          msgsTokensOut (parse_session_file now sid ps entry path f).messages
      ∧ (parse_session_file now sid ps entry path f).messages.length =
          ((f.map (·.raw)).filterMap (parse_line now)).length)
    ∧ (∀ now (s : Session) f,
        s.total_tokens_in = msgsTokensIn s.messages →
        s.total_tokens_out = msgsTokensOut s.messages →
        (read_new_lines now s f).1.total_tokens_in =
            msgsTokensIn (read_new_lines now s f).1.messages
        ∧ (read_new_lines now s f).1.total_tokens_out =
            msgsTokensOut (read_new_lines now s f).1.messages
        ∧ (read_new_lines now s f).1.messages.length =
            s.messages.length + (read_new_lines now s f).2.length) := by
  constructor
  · intro now sid ps entry path f
    unfold parse_session_file
    refine ⟨?_, ?_, ?_⟩
    · simp [processLines_tokens_in, processLines_messages, msgsTokensIn]
    · simp [processLines_tokens_out, processLines_messages, msgsTokensOut]
    · simp [processLines_messages, processLines_out]
  · intro now s f hin hout
    by_cases h : fileLen f ≤ s.file_offset
    · unfold read_new_lines
      rw [if_pos h]
      exact ⟨hin, hout, by simp⟩
    · unfold read_new_lines
      rw [if_neg h]
      refine ⟨?_, ?_, ?_⟩
      · simp [processLines_tokens_in, processLines_messages,
          msgsTokensIn_append, hin]
      · simp [processLines_tokens_out, processLines_messages,
          msgsTokensOut_append, hout]
      · simp [processLines_messages]

/-- Witness for C2: the tail-read invariant preservation at a concrete
session and file. -/
theorem token_sum_invariants_witness :
    (read_new_lines 3 c1_sess [⟨RawLine.ok (bareRaw "progress"), 20⟩]).1.total_tokens_in =
        msgsTokensIn (read_new_lines 3 c1_sess
          [⟨RawLine.ok (bareRaw "progress"), 20⟩]).1.messages :=
  (token_sum_invariants.2 3 c1_sess [⟨RawLine.ok (bareRaw "progress"), 20⟩]
    (by decide) (by decide)).1

/-! ## Claim C6: metadata refresh frame -/

/-- All index entries of a project list, in project order. -/
def projectIndexes (ps : List Project) : List (String × IndexEntry) :=
  (ps.map (·.index)).flatten

/-- How a tracked session may evolve under a metadata refresh drawing on the
entries `E`: every field except `custom_title` and `summary` is unchanged,
and those two are unchanged or overwritten by a set value from an entry
keyed by the session's id — never cleared. -/
def MetaEvolves (E : List (String × IndexEntry)) (id : String)
    (s s2 : Session) : Prop :=
  s2.id = s.id ∧ s2.project_slug = s.project_slug ∧ s2.slug = s.slug ∧
  s2.git_branch = s.git_branch ∧ s2.cwd = s.cwd ∧
  s2.messages = s.messages ∧ s2.last_activity = s.last_activity ∧
  s2.file_offset = s.file_offset ∧ s2.file_path = s.file_path ∧
  s2.total_tokens_in = s.total_tokens_in ∧
  s2.total_tokens_out = s.total_tokens_out ∧
  (s2.custom_title = s.custom_title ∨
    (s2.custom_title.isSome ∧ ∃ e, (id, e) ∈ E ∧ e.custom_title = s2.custom_title)) ∧
  (s.custom_title.isSome → s2.custom_title.isSome) ∧
  (s2.summary = s.summary ∨
    (s2.summary.isSome ∧ ∃ e, (id, e) ∈ E ∧ e.summary = s2.summary)) ∧
  (s.summary.isSome → s2.summary.isSome)

theorem MetaEvolves_rfl (E : List (String × IndexEntry)) (id : String)
    (s : Session) : MetaEvolves E id s s :=
  ⟨rfl, rfl, rfl, rfl, rfl, rfl, rfl, rfl, rfl, rfl, rfl,
   Or.inl rfl, fun h => h, Or.inl rfl, fun h => h⟩

theorem MetaEvolves_mono {E E' : List (String × IndexEntry)} {id : String}
    {s s2 : Session} (hsub : ∀ x ∈ E, x ∈ E') (h : MetaEvolves E id s s2) :
    MetaEvolves E' id s s2 := by
  obtain ⟨h1, h2, h3, h4, h5, h6, h7, h8, h9, h10, h11, hct, hcs, hsm, hss⟩ := h
  refine ⟨h1, h2, h3, h4, h5, h6, h7, h8, h9, h10, h11, ?_, hcs, ?_, hss⟩
  · rcases hct with h | ⟨hs, e, he, hv⟩
    · exact Or.inl h
    · exact Or.inr ⟨hs, e, hsub _ he, hv⟩
  · rcases hsm with h | ⟨hs, e, he, hv⟩
    · exact Or.inl h
    · exact Or.inr ⟨hs, e, hsub _ he, hv⟩

theorem MetaEvolves_trans {E : List (String × IndexEntry)} {id : String}
    {a b c : Session} (h1 : MetaEvolves E id a b) (h2 : MetaEvolves E id b c) :
    MetaEvolves E id a c := by
  obtain ⟨a1, a2, a3, a4, a5, a6, a7, a8, a9, a10, a11, act, acs, asm, ass⟩ := h1
  obtain ⟨b1, b2, b3, b4, b5, b6, b7, b8, b9, b10, b11, bct, bcs, bsm, bss⟩ := h2
  refine ⟨b1.trans a1, b2.trans a2, b3.trans a3, b4.trans a4, b5.trans a5,
    b6.trans a6, b7.trans a7, b8.trans a8, b9.trans a9, b10.trans a10,
    b11.trans a11, ?_, fun h => bcs (acs h), ?_, fun h => bss (ass h)⟩
  · rcases bct with h | hx
    · rw [h]; exact act
    · exact Or.inr hx
  · rcases bsm with h | hx
    · rw [h]; exact asm
    · exact Or.inr hx

theorem MetaEvolves_applyIndexEntry {E : List (String × IndexEntry)}
    {id : String} {e : IndexEntry} (he : (id, e) ∈ E) (s : Session) :
    MetaEvolves E id s (applyIndexEntry e s) := by
  refine ⟨rfl, rfl, rfl, rfl, rfl, rfl, rfl, rfl, rfl, rfl, rfl, ?_, ?_, ?_, ?_⟩
  · cases h : e.custom_title.isSome
    · exact Or.inl (by simp [applyIndexEntry, h])
    · exact Or.inr ⟨by simp [applyIndexEntry, h], e, he, by simp [applyIndexEntry, h]⟩
  · intro hs
    cases h : e.custom_title.isSome
    · simpa [applyIndexEntry, h] using hs
    · simp [applyIndexEntry, h]
  · cases h : e.summary.isSome
    · exact Or.inl (by simp [applyIndexEntry, h])
    · exact Or.inr ⟨by simp [applyIndexEntry, h], e, he, by simp [applyIndexEntry, h]⟩
  · intro hs
    cases h : e.summary.isSome
    · simpa [applyIndexEntry, h] using hs
    · simp [applyIndexEntry, h]

theorem refreshEntries_evolves (id : String) :
    ∀ (E : List (String × IndexEntry)) (m : SMap) (s : Session), m id = some s →
      ∃ s2, refreshEntries m E id = some s2 ∧ MetaEvolves E id s s2 := by
  intro E
  induction E with
  | nil => exact fun m s h => ⟨s, h, MetaEvolves_rfl [] id s⟩
  | cons p rest ih =>
    intro m s h
    obtain ⟨sid, e⟩ := p
    cases hm : m sid with
    | none =>
      simp only [refreshEntries, hm]
      obtain ⟨s2, h1, h2⟩ := ih m s h
      exact ⟨s2, h1, MetaEvolves_mono (fun x hx => List.mem_cons_of_mem _ hx) h2⟩
    | some t =>
      simp only [refreshEntries, hm]
      by_cases hid : id = sid
      · subst hid
        have ht : t = s := by
          rw [h] at hm
          exact (Option.some.inj hm).symm
        subst ht
        obtain ⟨s2, h1, h2⟩ :=
          ih (updateMap m id (applyIndexEntry e t)) (applyIndexEntry e t)
            (by simp [updateMap])
        refine ⟨s2, h1, MetaEvolves_trans
          (MetaEvolves_applyIndexEntry (List.mem_cons_self (id, e) rest) t) ?_⟩
        exact MetaEvolves_mono (fun x hx => List.mem_cons_of_mem _ hx) h2
      · obtain ⟨s2, h1, h2⟩ :=
          ih (updateMap m sid (applyIndexEntry e t)) s (by simp [updateMap, hid, h])
        exact ⟨s2, h1, MetaEvolves_mono (fun x hx => List.mem_cons_of_mem _ hx) h2⟩

/-- C6: a metadata refresh leaves every tracked session's branch, cwd, slug,
messages, offset, token totals, path and last_activity unchanged, and only
overwrites `custom_title` / `summary` with set values from an index entry
keyed by the session's id — never clearing a set field. -/
theorem refresh_index_metadata_spec (projects : List Project) (m : SMap)
    (id : String) (s : Session) (h : m id = some s) :
    ∃ s2, refresh_index_metadata projects m id = some s2
      ∧ MetaEvolves (projectIndexes projects) id s s2 := by
  induction projects generalizing m s with
  | nil => exact ⟨s, h, MetaEvolves_rfl _ id s⟩
  | cons p ps ih =>
    cases hd : p.isDir with
    | false =>
      simp only [refresh_index_metadata, hd]
      obtain ⟨s2, h1, h2⟩ := ih m s h
      refine ⟨s2, h1, MetaEvolves_mono (fun x hx => ?_) h2⟩
      simp only [projectIndexes, List.map_cons, List.flatten_cons] at hx ⊢
      exact List.mem_append_right _ hx
    | true =>
      simp only [refresh_index_metadata, hd]
      obtain ⟨s1, h1, h2⟩ := refreshEntries_evolves id p.index m s h
      obtain ⟨s2, h3, h4⟩ := ih (refreshEntries m p.index) s1 h1
      refine ⟨s2, h3, MetaEvolves_trans
        (MetaEvolves_mono (fun x hx => ?_) h2)
        (MetaEvolves_mono (fun x hx => ?_) h4)⟩
      · simp only [projectIndexes, List.map_cons, List.flatten_cons]
        exact List.mem_append_left _ hx
      · simp only [projectIndexes, List.map_cons, List.flatten_cons] at hx ⊢
        exact List.mem_append_right _ hx

/-- Witness for C6: one project whose index retitles a tracked session. -/
theorem refresh_index_metadata_spec_witness :
    ∃ s2, refresh_index_metadata
        [⟨"p", true, [("s1", ⟨"s1", some "title", none, none, none⟩)], .ok []⟩]
        (updateMap emptyMap "s1" c1_sess) "s1" = some s2
      ∧ MetaEvolves (projectIndexes
          [⟨"p", true, [("s1", ⟨"s1", some "title", none, none, none⟩)], .ok []⟩])
          "s1" c1_sess s2 :=
  refresh_index_metadata_spec
    [⟨"p", true, [("s1", ⟨"s1", some "title", none, none, none⟩)], .ok []⟩]
    (updateMap emptyMap "s1" c1_sess) "s1" c1_sess (by simp [updateMap])

/-! ## Claim C8: discovery error handling -/

/-- C8: a failed root-directory read aborts discovery and surfaces the error;
a per-file parse failure yields a placeholder session (no messages, offset 0,
display metadata from the index entry only) while the scan continues with
the remaining files. -/
theorem discover_sessions_errors :
    (∀ (now : Nat) (e : String), discover_sessions now (.error e) = .error e)
    ∧ (∀ (now : Nat) (dn : String) (idx : List (String × IndexEntry))
        (fb fg : FileDesc) (err : String) (lines : List FileLine),
        fb.ext = some "jsonl" → strStartsWith fb.stem "agent-" = false →
        fb.content = .error err →
        fg.ext = some "jsonl" → strStartsWith fg.stem "agent-" = false →
        fg.content = .ok lines →
        fb.stem ≠ fg.stem →
        ∃ mm, discover_sessions now (.ok [⟨dn, true, idx, .ok [fb, fg]⟩]) = .ok mm
          ∧ mm fb.stem = some (placeholderSession now fb.stem dn
              (alist_get fb.stem idx) fb.path)
          ∧ (placeholderSession now fb.stem dn
              (alist_get fb.stem idx) fb.path).messages = []
          ∧ (placeholderSession now fb.stem dn
              (alist_get fb.stem idx) fb.path).file_offset = 0
          ∧ (placeholderSession now fb.stem dn
              (alist_get fb.stem idx) fb.path).custom_title =
                (alist_get fb.stem idx).bind (·.custom_title)
          ∧ (placeholderSession now fb.stem dn
              (alist_get fb.stem idx) fb.path).summary =
                (alist_get fb.stem idx).bind (·.summary)
          ∧ mm fg.stem = some (parse_session_file now fg.stem dn
              (alist_get fg.stem idx) fg.path lines)) := by
  constructor
  · intro now e
    rfl
  · intro now dn idx fb fg err lines hbe hba hbc hge hga hgc hne
    refine ⟨discoverFiles now ⟨dn, true, idx, .ok [fb, fg]⟩ emptyMap [fb, fg],
      rfl, ?_, rfl, rfl, rfl, rfl, ?_⟩
    · simp [discoverFiles, hbe, hba, hge, hga, updateMap, hne, Ne.symm hne,
        fileSession, hbc]
    · simp [discoverFiles, hbe, hba, hge, hga, updateMap, fileSession, hgc]

/-- Witness for C8: a concrete project with one unreadable and one readable
log file. -/
theorem discover_sessions_errors_witness :
    ∃ mm, discover_sessions 5
        (.ok [⟨"p", true, [],
          .ok [⟨"bad", some "jsonl", "p/bad.jsonl", .error "io"⟩,
               ⟨"good", some "jsonl", "p/good.jsonl", .ok []⟩]⟩]) = .ok mm
      ∧ mm "bad" = some (placeholderSession 5 "bad" "p" (alist_get "bad" []) "p/bad.jsonl")
      ∧ (placeholderSession 5 "bad" "p" (alist_get "bad" []) "p/bad.jsonl").messages = []
      ∧ (placeholderSession 5 "bad" "p" (alist_get "bad" []) "p/bad.jsonl").file_offset = 0
      ∧ (placeholderSession 5 "bad" "p" (alist_get "bad" []) "p/bad.jsonl").custom_title =
          (alist_get "bad" ([] : List (String × IndexEntry))).bind (·.custom_title)
      ∧ (placeholderSession 5 "bad" "p" (alist_get "bad" []) "p/bad.jsonl").summary =
          (alist_get "bad" ([] : List (String × IndexEntry))).bind (·.summary)
      ∧ mm "good" = some (parse_session_file 5 "good" "p" (alist_get "good" [])
          "p/good.jsonl" []) :=
  discover_sessions_errors.2 5 "p" []
    ⟨"bad", some "jsonl", "p/bad.jsonl", .error "io"⟩
    ⟨"good", some "jsonl", "p/good.jsonl", .ok []⟩ "io" []
    rfl (by decide) rfl rfl (by decide) rfl (by decide)

/-! ## Claim C4: selection preservation -/

theorem findIdxQ_eq_none_iff_not_mem (l : List String) (sel : String) :
    l.findIdx? (fun id => id == sel) = none ↔ sel ∉ l := by
  rw [List.findIdx?_eq_none_iff]
  constructor
  · intro h hm
    have := h sel hm
    simp at this
  · intro h x hx
    by_cases hxs : x = sel
    · subst hxs
      exact absurd hx h
    · simp [hxs]

theorem restoreSelection_ids (old : Option String) (st1 : ViewState) :
    (restoreSelection old st1).sorted_session_ids = st1.sorted_session_ids := by
  unfold restoreSelection
  cases old with
  | none => rfl
  | some sel =>
    cases h : st1.sorted_session_ids.findIdx? (fun id => id == sel) with
    | some idx => simp [h]
    | none =>
      simp only [h]
      split <;> rfl

theorem restoreSelection_spec (sel : String) (st1 : ViewState) :
    (sel ∈ st1.sorted_session_ids →
      (restoreSelection (some sel) st1).selected_session = st1.selected_session
      ∧ (restoreSelection (some sel) st1).list_index =
          st1.sorted_session_ids.findIdx? (fun id => id == sel))
    ∧ (sel ∉ st1.sorted_session_ids → st1.sorted_session_ids ≠ [] →
        (restoreSelection (some sel) st1).selected_session =
          st1.sorted_session_ids.head?
        ∧ (restoreSelection (some sel) st1).list_index = some 0)
    ∧ (sel ∉ st1.sorted_session_ids → st1.sorted_session_ids = [] →
        (restoreSelection (some sel) st1).selected_session = none
        ∧ (restoreSelection (some sel) st1).list_index = none) := by
  cases h : st1.sorted_session_ids.findIdx? (fun id => id == sel) with
  | some idx =>
    have hmem : sel ∈ st1.sorted_session_ids := by
      by_contra hnm
      rw [(findIdxQ_eq_none_iff_not_mem _ _).mpr hnm] at h
      cases h
    refine ⟨fun _ => ?_, fun hnm _ => absurd hmem hnm, fun hnm _ => absurd hmem hnm⟩
    simp [restoreSelection, h]
  | none =>
    have hnm : sel ∉ st1.sorted_session_ids :=
      (findIdxQ_eq_none_iff_not_mem _ _).mp h
    refine ⟨fun hm => absurd hm hnm, fun _ hne => ?_, fun _ he => ?_⟩
    · have hie : st1.sorted_session_ids.isEmpty = false := by
        cases hl : st1.sorted_session_ids with
        | nil => exact absurd hl hne
        | cons a l => simp
      simp [restoreSelection, h, hie]
    · have hie : st1.sorted_session_ids.isEmpty = true := by
        rw [he]
        rfl
      simp [restoreSelection, h, hie]

/-- C4 (amended): after a recompute, a previous selection is kept at its new
index when still present, else the first surviving id is selected, else the
selection is cleared; but when there was no previous selection the selection
and index are left untouched — in particular an empty selection stays empty
even when the recomputed list is non-empty. -/
theorem update_sort_selection (isActive : Session → Bool) (keys : List String)
    (st : ViewState) :
    (∀ sel, st.selected_session = some sel →
      (sel ∈ (update_sort isActive keys st).sorted_session_ids →
        (update_sort isActive keys st).selected_session = some sel
        ∧ (update_sort isActive keys st).list_index =
            (update_sort isActive keys st).sorted_session_ids.findIdx?
              (fun id => id == sel))
      ∧ (sel ∉ (update_sort isActive keys st).sorted_session_ids →
          (update_sort isActive keys st).sorted_session_ids ≠ [] →
          (update_sort isActive keys st).selected_session =
            (update_sort isActive keys st).sorted_session_ids.head?
          ∧ (update_sort isActive keys st).list_index = some 0)
      ∧ (sel ∉ (update_sort isActive keys st).sorted_session_ids →
          (update_sort isActive keys st).sorted_session_ids = [] →
          (update_sort isActive keys st).selected_session = none
          ∧ (update_sort isActive keys st).list_index = none))
    ∧ (st.selected_session = none →
        (update_sort isActive keys st).selected_session = none
        ∧ (update_sort isActive keys st).list_index = st.list_index) := by
  constructor
  · intro sel hsel
    unfold update_sort
    rw [hsel]
    have hspec := restoreSelection_spec sel
      { selected_session := some sel,
        list_index := st.list_index,
        show_active_only := st.show_active_only,
        filter_text := st.filter_text,
        sessions := (dedupSlugs st.sessions []
          (sort_session_ids st.sessions keys)).2,
        sorted_session_ids :=
          match st.filter_text with
          | some flt => textFilter flt
              (dedupSlugs st.sessions [] (sort_session_ids st.sessions keys)).2
              (if st.show_active_only then
                activeFilter isActive
                  (dedupSlugs st.sessions [] (sort_session_ids st.sessions keys)).2
                  (dedupSlugs st.sessions [] (sort_session_ids st.sessions keys)).1
              else (dedupSlugs st.sessions [] (sort_session_ids st.sessions keys)).1)
          | none =>
              if st.show_active_only then
                activeFilter isActive
                  (dedupSlugs st.sessions [] (sort_session_ids st.sessions keys)).2
                  (dedupSlugs st.sessions [] (sort_session_ids st.sessions keys)).1
              else (dedupSlugs st.sessions [] (sort_session_ids st.sessions keys)).1 }
    rw [restoreSelection_ids]
    exact hspec
  · intro hsel
    unfold update_sort
    rw [hsel]
    exact ⟨rfl, rfl⟩

/-- The session used by the C4 counterexample. -/
def c4_sess : Session :=
  { id := "a", project_slug := "p", slug := none, custom_title := none,
    summary := none, git_branch := none, cwd := none, messages := [],
    last_activity := 5, file_offset := 0, file_path := "p/a.jsonl",
    total_tokens_in := 0, total_tokens_out := 0 }

/-- The C4 start state: session `"a"` selected and a filter nothing matches. -/
def c4_st0 : ViewState :=
  { sessions := updateMap emptyMap "a" c4_sess, sorted_session_ids := ["a"],
    selected_session := some "a", list_index := some 0,
    show_active_only := false, filter_text := some "zzz" }

/-- The state after the no-match filter is applied. -/
def c4_st1 : ViewState := update_sort (fun _ => true) ["a"] c4_st0

/-- The state after the filter is cleared again. -/
def c4_st2 : ViewState :=
  update_sort (fun _ => true) ["a"] { c4_st1 with filter_text := none }

/-- Counterexample to C4 as stated: the no-match filter empties the list and
clears the selection, but clearing the filter restores the list without
reselecting the previously selected id (and without selecting the first id,
although the list is non-empty). -/
theorem update_sort_selection_cex :
    c4_st1.sorted_session_ids = [] ∧ c4_st1.selected_session = none
    ∧ c4_st2.sorted_session_ids = ["a"]
    ∧ c4_st2.selected_session = none
    ∧ ¬ c4_st2.selected_session = some "a" := by decide

/-- Witness for C4 (amended): the previously selected id survives a
recompute with no filter and stays selected at index 0. -/
theorem update_sort_selection_witness :
    (update_sort (fun _ => true) ["a"]
        { c4_st0 with filter_text := none }).selected_session = some "a"
    ∧ (update_sort (fun _ => true) ["a"]
        { c4_st0 with filter_text := none }).list_index =
      (update_sort (fun _ => true) ["a"]
        { c4_st0 with filter_text := none }).sorted_session_ids.findIdx?
          (fun id => id == "a") :=
  ((update_sort_selection (fun _ => true) ["a"]
      { c4_st0 with filter_text := none }).1 "a" rfl).1 (by decide)

/-! ## Claim C5: the visibility filter -/

theorem textFilter_mem (flt : String) (m : SMap) (ids : List String)
    (id : String) :
    id ∈ textFilter flt m ids ↔
      id ∈ ids ∧ ∃ s, m id = some s ∧ textMatch flt s = true := by
  unfold textFilter
  rw [List.mem_filter]
  cases hm : m id with
  | none => simp [hm]
  | some s => simp [hm]

theorem activeFilter_mem (isActive : Session → Bool) (m : SMap)
    (ids : List String) (id : String) :
    id ∈ activeFilter isActive m ids ↔
      id ∈ ids ∧ ∃ s, m id = some s ∧ isActive s = true := by
  unfold activeFilter
  rw [List.mem_filter]
  cases hm : m id with
  | none => simp [hm]
  | some s => simp [hm]

theorem update_sort_ids (isActive : Session → Bool) (keys : List String)
    (st : ViewState) :
    (update_sort isActive keys st).sorted_session_ids =
      match st.filter_text with
      | some flt =>
          textFilter flt
            (dedupSlugs st.sessions [] (sort_session_ids st.sessions keys)).2
            (if st.show_active_only then
              activeFilter isActive
                (dedupSlugs st.sessions [] (sort_session_ids st.sessions keys)).2
                (dedupSlugs st.sessions [] (sort_session_ids st.sessions keys)).1
            else (dedupSlugs st.sessions [] (sort_session_ids st.sessions keys)).1)
      | none =>
          if st.show_active_only then
            activeFilter isActive
              (dedupSlugs st.sessions [] (sort_session_ids st.sessions keys)).2
              (dedupSlugs st.sessions [] (sort_session_ids st.sessions keys)).1
          else (dedupSlugs st.sessions [] (sort_session_ids st.sessions keys)).1 := by
  unfold update_sort
  rw [restoreSelection_ids]

/-- C5 (amended): with a filter set, a session of the deduplicated sequence
stays visible iff it passes the active-only predicate (when enabled) and the
lowercased filter is a substring of the lowercased display name, of the
*raw* id (this comparison is case-sensitive on the id side), or of the
lowercased summary. -/
theorem update_sort_filter_mem (isActive : Session → Bool) (keys : List String)
    (st : ViewState) (flt : String) (hf : st.filter_text = some flt)
    (id : String) :
    id ∈ (update_sort isActive keys st).sorted_session_ids ↔
      id ∈ (dedupSlugs st.sessions [] (sort_session_ids st.sessions keys)).1
      ∧ ∃ s, (dedupSlugs st.sessions []
            (sort_session_ids st.sessions keys)).2 id = some s
        ∧ (st.show_active_only = true → isActive s = true)
        ∧ (strContains (lowerStr (display_name s)) (lowerStr flt)
            || strContains s.id (lowerStr flt)
            || strContains (lowerStr (s.summary.getD "")) (lowerStr flt)) = true := by
  rw [update_sort_ids]
  simp only [hf]
  by_cases ha : st.show_active_only = true
  · rw [if_pos ha, textFilter_mem]
    constructor
    · rintro ⟨hmem2, s, hs, htm⟩
      rw [activeFilter_mem] at hmem2
      obtain ⟨hmem, s2, hs2, hact⟩ := hmem2
      have hss : s = s2 := by
        rw [hs] at hs2
        exact Option.some.inj hs2
      subst hss
      exact ⟨hmem, s, hs, fun _ => hact, htm⟩
    · rintro ⟨hmem, s, hs, hact, htm⟩
      rw [activeFilter_mem]
      exact ⟨⟨hmem, s, hs, hact ha⟩, s, hs, htm⟩
  · rw [if_neg ha, textFilter_mem]
    constructor
    · rintro ⟨hmem, s, hs, htm⟩
      exact ⟨hmem, s, hs, fun hc => absurd hc ha, htm⟩
    · rintro ⟨hmem, s, hs, _, htm⟩
      exact ⟨hmem, s, hs, htm⟩

/-- The session used by the C5 counterexample: its raw id `"AB"` is upper
case, its display name is its custom title. -/
def c5_sess : Session :=
  { id := "AB", project_slug := "p", slug := none, custom_title := some "t",
    summary := none, git_branch := none, cwd := none, messages := [],
    last_activity := 5, file_offset := 0, file_path := "p/AB.jsonl",
    total_tokens_in := 0, total_tokens_out := 0 }

/-- A view state filtering on `"ab"` with only `c5_sess` tracked. -/
def c5_st : ViewState :=
  { sessions := updateMap emptyMap "AB" c5_sess, sorted_session_ids := ["AB"],
    selected_session := some "AB", list_index := some 0,
    show_active_only := false, filter_text := some "ab" }

/-- Counterexample to C5 as stated: the filter `"ab"` is a case-insensitive
substring of the raw id `"AB"`, the session is tracked, not deduplicated
(no slug) and not subject to the active filter, yet it is filtered out,
because the raw id is matched case-sensitively against the lowercased
filter. Clearing the filter keeps it visible. -/
theorem update_sort_filter_cex :
    strContains (lowerStr c5_sess.id) (lowerStr "ab") = true
    ∧ c5_st.sessions "AB" = some c5_sess
    ∧ c5_sess.slug = none
    ∧ c5_st.show_active_only = false
    ∧ (update_sort (fun _ => true) ["AB"] c5_st).sorted_session_ids = []
    ∧ (update_sort (fun _ => true) ["AB"]
        { c5_st with filter_text := none }).sorted_session_ids = ["AB"] := by
  decide

/-- Witness for C5 (amended): a lowercase id `"ab"` matches the filter
`"ab"` and stays visible. -/
theorem update_sort_filter_mem_witness :
    "ab" ∈ (update_sort (fun _ => true) ["ab"]
      { sessions := updateMap emptyMap "ab" { c5_sess with id := "ab" },
        sorted_session_ids := ["ab"], selected_session := none,
        list_index := none, show_active_only := false,
        filter_text := some "ab" }).sorted_session_ids :=
  (update_sort_filter_mem (fun _ => true) ["ab"]
    { sessions := updateMap emptyMap "ab" { c5_sess with id := "ab" },
      sorted_session_ids := ["ab"], selected_session := none,
      list_index := none, show_active_only := false,
      filter_text := some "ab" } "ab" rfl "ab").mpr
    ⟨by decide, { c5_sess with id := "ab" }, by decide, fun h => rfl, by decide⟩

/-! ## Claim C3: slug deduplication -/

/-- The slug of a tracked session (none when untracked or unset). -/
def slugOf (m : SMap) (id : String) : Option String := (m id).bind (·.slug)

/-- The first id in a list whose session carries the given slug. -/
def firstWithSlug (m : SMap) (sl : String) : List String → Option String
  | [] => none
  | id :: rest =>
    if slugOf m id = some sl then some id else firstWithSlug m sl rest

theorem slugOf_migrateTitle (m : SMap) (k : String) (dup : Session)
    (id : String) : slugOf (migrateTitle m k dup) id = slugOf m id := by
  unfold migrateTitle
  split
  · split
    next kept heq =>
      split
      next hnone =>
        unfold slugOf updateMap
        by_cases hik : id = k
        · subst hik
          simp [heq]
        · simp [hik]
      next => rfl
    next => rfl
  · rfl

theorem firstWithSlug_congr (m m2 : SMap) (sl : String)
    (h : ∀ id, slugOf m2 id = slugOf m id) :
    ∀ ids, firstWithSlug m2 sl ids = firstWithSlug m sl ids := by
  intro ids
  induction ids with
  | nil => rfl
  | cons a rest ih => simp [firstWithSlug, h a, ih]

theorem insertSorted_perm (le : String → String → Bool) (a : String)
    (l : List String) : (insertSorted le a l).Perm (a :: l) := by
  induction l with
  | nil => exact List.Perm.refl _
  | cons b bs ih =>
    unfold insertSorted
    split
    · exact List.Perm.refl _
    · exact (ih.cons b).trans (List.Perm.swap a b bs)

theorem sortedByLe_perm (le : String → String → Bool) (l : List String) :
    (sortedByLe le l).Perm l := by
  induction l with
  | nil => exact List.Perm.refl _
  | cons a as ih =>
    exact (insertSorted_perm le a (sortedByLe le as)).trans (ih.cons a)

theorem sort_session_ids_nodup (m : SMap) (keys : List String)
    (h : keys.Nodup) : (sort_session_ids m keys).Nodup :=
  ((sortedByLe_perm (sortLe m) keys).nodup_iff).mpr h

/-- Membership in the deduplicated id list: an id survives iff it is in the
input and, whenever its session carries a slug, that slug is not already
owned by `seen` and the id is the first in the input carrying it. -/
theorem dedupSlugs_mem :
    ∀ (ids : List String) (m : SMap) (seen : List (String × String)),
      ids.Nodup →
      ∀ id, id ∈ (dedupSlugs m seen ids).1 ↔
        (id ∈ ids ∧ ∀ sl, slugOf m id = some sl →
          alist_get sl seen = none ∧ firstWithSlug m sl ids = some id) := by
  intro ids
  induction ids with
  | nil => intro m seen hnd id; simp [dedupSlugs]
  | cons a rest ih =>
    intro m seen hnd id
    obtain ⟨ha, hrest⟩ := List.nodup_cons.mp hnd
    cases hma : m a with
    | none =>
      have hsa : slugOf m a = none := by simp [slugOf, hma]
      simp only [dedupSlugs, hma]
      by_cases hid : id = a
      · subst hid
        simp only [List.mem_cons]
        constructor
        · intro _
          refine ⟨Or.inl trivial, fun sl hs => ?_⟩
          rw [hsa] at hs
          cases hs
        · intro _
          exact Or.inl trivial
      · have hiff := ih m seen hrest id
        simp only [List.mem_cons]
        constructor
        · intro hmem
          rcases hmem with h | h
          · exact absurd h hid
          obtain ⟨h1, h2⟩ := hiff.mp h
          refine ⟨Or.inr h1, fun sl hs => ?_⟩
          obtain ⟨hg, hf⟩ := h2 sl hs
          refine ⟨hg, ?_⟩
          simp [firstWithSlug, hsa, hf]
        · rintro ⟨hmem, hP⟩
          rcases hmem with h | h
          · exact absurd h hid
          refine Or.inr (hiff.mpr ⟨h, fun sl hs => ?_⟩)
          obtain ⟨hg, hf⟩ := hP sl hs
          refine ⟨hg, ?_⟩
          simpa [firstWithSlug, hsa] using hf
    | some s =>
      cases hsl : s.slug with
      | none =>
        have hsa : slugOf m a = none := by simp [slugOf, hma, hsl]
        simp only [dedupSlugs, hma, hsl]
        by_cases hid : id = a
        · subst hid
          simp only [List.mem_cons]
          constructor
          · intro _
            refine ⟨Or.inl trivial, fun sl hs => ?_⟩
            rw [hsa] at hs
            cases hs
          · intro _
            exact Or.inl trivial
        · have hiff := ih m seen hrest id
          simp only [List.mem_cons]
          constructor
          · intro hmem
            rcases hmem with h | h
            · exact absurd h hid
            obtain ⟨h1, h2⟩ := hiff.mp h
            refine ⟨Or.inr h1, fun sl hs => ?_⟩
            obtain ⟨hg, hf⟩ := h2 sl hs
            refine ⟨hg, ?_⟩
            simp [firstWithSlug, hsa, hf]
          · rintro ⟨hmem, hP⟩
            rcases hmem with h | h
            · exact absurd h hid
            refine Or.inr (hiff.mpr ⟨h, fun sl hs => ?_⟩)
            obtain ⟨hg, hf⟩ := hP sl hs
            refine ⟨hg, ?_⟩
            simpa [firstWithSlug, hsa] using hf
      | some sl0 =>
        have hsa : slugOf m a = some sl0 := by simp [slugOf, hma, hsl]
        cases hget : alist_get sl0 seen with
        | some keptId =>
          simp only [dedupSlugs, hma, hsl, hget]
          have hslugeq : ∀ j, slugOf (migrateTitle m keptId s) j = slugOf m j :=
            slugOf_migrateTitle m keptId s
          have hiff := ih (migrateTitle m keptId s) seen hrest id
          by_cases hid : id = a
          · subst hid
            constructor
            · intro hmem
              obtain ⟨h1, _⟩ := hiff.mp hmem
              exact absurd h1 ha
            · rintro ⟨_, hP⟩
              obtain ⟨hg, _⟩ := hP sl0 hsa
              rw [hget] at hg
              cases hg
          · constructor
            · intro hmem
              obtain ⟨h1, h2⟩ := hiff.mp hmem
              refine ⟨List.mem_cons_of_mem a h1, fun sl hs => ?_⟩
              have hs' : slugOf (migrateTitle m keptId s) id = some sl := by
                rw [hslugeq id]
                exact hs
              obtain ⟨hg, hf⟩ := h2 sl hs'
              rw [firstWithSlug_congr m (migrateTitle m keptId s) sl hslugeq rest] at hf
              refine ⟨hg, ?_⟩
              by_cases hsl' : slugOf m a = some sl
              · rw [hsa] at hsl'
                obtain h'' := Option.some.inj hsl'
                subst h''
                rw [hget] at hg
                cases hg
              · simp [firstWithSlug, hsl', hf]
            · rintro ⟨hmem, hP⟩
              rcases List.mem_cons.mp hmem with h | h
              · exact absurd h hid
              refine hiff.mpr ⟨h, fun sl hs => ?_⟩
              rw [hslugeq id] at hs
              obtain ⟨hg, hf⟩ := hP sl hs
              refine ⟨hg, ?_⟩
              rw [firstWithSlug_congr m (migrateTitle m keptId s) sl hslugeq rest]
              by_cases hsl' : slugOf m a = some sl
              · rw [hsa] at hsl'
                obtain h'' := Option.some.inj hsl'
                subst h''
                rw [hget] at hg
                cases hg
              · simpa [firstWithSlug, hsl'] using hf
        | none =>
          simp only [dedupSlugs, hma, hsl, hget]
          have hiff := ih m ((sl0, a) :: seen) hrest id
          by_cases hid : id = a
          · subst hid
            simp only [List.mem_cons]
            constructor
            · intro _
              refine ⟨Or.inl trivial, fun sl hs => ?_⟩
              rw [hsa] at hs
              obtain h'' := Option.some.inj hs
              subst h''
              exact ⟨hget, by simp [firstWithSlug, hsa]⟩
            · intro _
              exact Or.inl trivial
          · simp only [List.mem_cons]
            constructor
            · intro hmem
              rcases hmem with h | h
              · exact absurd h hid
              obtain ⟨h1, h2⟩ := hiff.mp h
              refine ⟨Or.inr h1, fun sl hs => ?_⟩
              obtain ⟨hg, hf⟩ := h2 sl hs
              by_cases hss : sl0 = sl
              · subst hss
                simp [alist_get] at hg
              · have hg' : alist_get sl seen = none := by
                  simpa [alist_get, hss] using hg
                refine ⟨hg', ?_⟩
                have haz : ¬(slugOf m a = some sl) := by
                  rw [hsa]
                  intro hc
                  exact hss (Option.some.inj hc)
                simp [firstWithSlug, haz, hf]
            · rintro ⟨hmem, hP⟩
              rcases hmem with h | h
              · exact absurd h hid
              refine Or.inr (hiff.mpr ⟨h, fun sl hs => ?_⟩)
              obtain ⟨hg, hf⟩ := hP sl hs
              by_cases hss : sl0 = sl
              · subst hss
                simp [firstWithSlug, hsa] at hf
                exact absurd hf.symm hid
              · have haz : ¬(slugOf m a = some sl) := by
                  rw [hsa]
                  intro hc
                  exact hss (Option.some.inj hc)
                refine ⟨by simp [alist_get, hss, hg], ?_⟩
                simpa [firstWithSlug, haz] using hf

/-- The title-migration step performed before a duplicate is discarded:
the kept session gains the duplicate's custom title exactly when the
duplicate has one and the kept session has none. -/
theorem migrateTitle_spec (m : SMap) (k : String) (dup kept : Session)
    (h : m k = some kept) :
    migrateTitle m k dup k =
      some (if kept.custom_title = none ∧ dup.custom_title.isSome then
        { kept with custom_title := dup.custom_title } else kept) := by
  unfold migrateTitle
  cases hdc : dup.custom_title.isSome with
  | false =>
    rw [if_neg (by simp [hdc])]
    rw [h, if_neg (by simp [hdc])]
  | true =>
    rw [if_pos rfl]
    simp only [h]
    by_cases hkc : kept.custom_title = none
    · rw [if_pos hkc]
      simp [updateMap, hkc, hdc]
    · rw [if_neg hkc]
      simp [h, hkc]

/-- C3: among the sessions of the sorted list sharing a non-empty slug,
exactly the first (earliest in descending `last_activity` order) survives
deduplication; the discard step migrates the duplicate's custom title onto
the kept session iff the kept one has none; sessions without a slug are
never removed. -/
theorem update_sort_dedup (m : SMap) (keys : List String) (hk : keys.Nodup) :
    (∀ id, id ∈ (dedupSlugs m [] (sort_session_ids m keys)).1 ↔
      (id ∈ sort_session_ids m keys ∧ ∀ sl, slugOf m id = some sl →
        firstWithSlug m sl (sort_session_ids m keys) = some id))
    ∧ (∀ k dup kept, m k = some kept →
        migrateTitle m k dup k =
          some (if kept.custom_title = none ∧ dup.custom_title.isSome then
            { kept with custom_title := dup.custom_title } else kept))
    ∧ (∀ id ∈ sort_session_ids m keys, slugOf m id = none →
        id ∈ (dedupSlugs m [] (sort_session_ids m keys)).1) := by
  have hnd := sort_session_ids_nodup m keys hk
  refine ⟨fun id => ?_, fun k dup kept h => migrateTitle_spec m k dup kept h,
    fun id hmem hsl => ?_⟩
  · rw [dedupSlugs_mem (sort_session_ids m keys) m [] hnd id]
    constructor
    · rintro ⟨h1, h2⟩
      exact ⟨h1, fun sl hs => (h2 sl hs).2⟩
    · rintro ⟨h1, h2⟩
      exact ⟨h1, fun sl hs => ⟨rfl, h2 sl hs⟩⟩
  · rw [dedupSlugs_mem (sort_session_ids m keys) m [] hnd id]
    refine ⟨hmem, fun sl hs => ?_⟩
    rw [hsl] at hs
    cases hs

/-- The two C3-witness sessions: both carry slug `"foo"`, `"a"` is more
recent and untitled, `"b"` is older and titled. -/
def c3_sessA : Session :=
  { id := "a", project_slug := "p", slug := some "foo", custom_title := none,
    summary := none, git_branch := none, cwd := none, messages := [],
    last_activity := 10, file_offset := 0, file_path := "p/a.jsonl",
    total_tokens_in := 0, total_tokens_out := 0 }

def c3_sessB : Session :=
  { id := "b", project_slug := "p", slug := some "foo",
    custom_title := some "T", summary := none, git_branch := none,
    cwd := none, messages := [], last_activity := 5, file_offset := 0,
    file_path := "p/b.jsonl", total_tokens_in := 0, total_tokens_out := 0 }

def c3_map : SMap :=
  updateMap (updateMap emptyMap "a" c3_sessA) "b" c3_sessB

/-- Witness for C3: in the two-session slug-`"foo"` store, the older `"b"`
is characterised by the dedup-membership rule (and is in fact dropped). -/
theorem update_sort_dedup_witness :
    ("b" ∈ (dedupSlugs c3_map [] (sort_session_ids c3_map ["a", "b"])).1 ↔
      ("b" ∈ sort_session_ids c3_map ["a", "b"]
        ∧ ∀ sl, slugOf c3_map "b" = some sl →
          firstWithSlug c3_map sl (sort_session_ids c3_map ["a", "b"]) = some "b"))
    ∧ "b" ∉ (dedupSlugs c3_map [] (sort_session_ids c3_map ["a", "b"])).1
    ∧ "a" ∈ (dedupSlugs c3_map [] (sort_session_ids c3_map ["a", "b"])).1 :=
  ⟨(update_sort_dedup c3_map ["a", "b"] (by decide)).1 "b", by decide, by decide⟩
